import Mathlib

/-!
Shallow embedding of the profile-ingestion distributor
(`pkg/distributor/distributor.go`) used to check the repository's
specification.

Go slices are modelled as `List`, Go strings as Lean `String` for label
names and values and as byte lists `List Nat` where the byte-level view
matters (hashing), and machine integers as `Nat` / `Int` with explicit
`% 2 ^ 32` where overflow matters.  Functions from packages of the
repository whose sources are not provided (`pkg/model`, `pkg/pprof`,
`pkg/validation`) are modelled from the specification; their doc comments
start with "Modelled from the spec:".
-/

/-- A series label (`typesv1.LabelPair`): a name/value pair of strings. -/
structure LabelPair where
  name : String
  value : String
deriving DecidableEq, Repr

/-- Modelled from the spec: the order of `phlaremodel.Labels` (pkg/model),
comparing labels by name, used by `sort.Sort` / `sort.Stable` call sites in
the distributor. -/
def labelLE (a b : LabelPair) : Prop :=
  a.name ≤ b.name

instance : DecidableRel labelLE :=
  fun a b =>
    decidable_of_iff (a.name.toList ≤ b.name.toList) String.le_iff_toList_le.symm

instance : IsTotal LabelPair labelLE :=
  ⟨fun a b => le_total a.name b.name⟩

instance : IsTrans LabelPair labelLE :=
  ⟨fun _ _ _ h h' => le_trans h h'⟩

/-- Modelled from the spec: the Go sorts (`sort.Sort` at line 245,
`sort.Stable` at line 575) over labels ordered by name, rendered as a
stable insertion sort. -/
def sortLabels (ls : List LabelPair) : List LabelPair :=
  List.insertionSort labelLE ls

/-- The labels are sorted ascending by name. -/
def sortedByName (ls : List LabelPair) : Prop :=
  List.Sorted labelLE ls

instance : DecidablePred sortedByName :=
  fun ls => inferInstanceAs (Decidable (List.Sorted labelLE ls))

/-- The labels carry pairwise distinct names. -/
def uniqueNames (ls : List LabelPair) : Prop :=
  (ls.map LabelPair.name).Nodup

instance : DecidablePred uniqueNames :=
  fun ls => inferInstanceAs (Decidable (ls.map LabelPair.name).Nodup)

/-- Modelled from the spec: `phlaremodel.Labels.Get` returns the value of
the first label with the given name, or the empty string when absent. -/
def labelsGet (n : String) : List LabelPair → String
  | [] => ""
  | l :: ls => if l.name = n then l.value else labelsGet n ls

/-- Modelled from the spec: `phlaremodel.Labels.GetLabel` returns the first
label with the given name, if any. -/
def getLabel (n : String) : List LabelPair → Option LabelPair
  | [] => none
  | l :: ls => if l.name = n then some l else getLabel n ls

/-- Modelled from the spec: `phlaremodel.Labels.Delete` removes every label
with the given name. -/
def deleteLabel (n : String) (ls : List LabelPair) : List LabelPair :=
  ls.filter (fun l => decide (l.name ≠ n))

/-- Replacing the value of the first label with the given name models the
Go code mutating the label returned by `GetLabel` in place. -/
def setFirstLabelValue (n v : String) : List LabelPair → List LabelPair
  | [] => []
  | l :: ls =>
    if l.name = n then { l with value := v } :: ls
    else l :: setFirstLabelValue n v ls

/-- The value of the first label with the given name, if any (observable
lookup used to state the claims). -/
def lookupLabel (n : String) : List LabelPair → Option String
  | [] => none
  | l :: ls => if l.name = n then some l.value else lookupLabel n ls

/-- Modelled from the spec: `phlaremodel.Labels.Unique` de-duplicates a
label list by name, keeping the first label of each run of equal names. -/
def uniqueLabels : List LabelPair → List LabelPair
  | [] => []
  | [l] => [l]
  | a :: b :: ls =>
    if a.name = b.name then uniqueLabels (a :: ls)
    else a :: uniqueLabels (b :: ls)
termination_by l => l.length

/-- Modelled from the spec: `phlaremodel.Labels.Clone`; in the pure model a
clone of a label list is the list itself. -/
def cloneLabels (ls : List LabelPair) : List LabelPair :=
  ls

/-- The 32-bit FNV offset basis of Go `hash/fnv`. -/
def fnvOffset32 : Nat := 2166136261

/-- The 32-bit FNV prime of Go `hash/fnv`. -/
def fnvPrime32 : Nat := 16777619

/-- One byte of Go `fnv.New32` (the FNV-1 variant): multiply the state by
the FNV prime modulo `2 ^ 32`, then xor in the byte. -/
def fnv1Step (h b : Nat) : Nat :=
  ((h * fnvPrime32) % 2 ^ 32) ^^^ b

/-- Go `hash.Hash32.Write` for `fnv.New32`: absorb a byte string into the
hash state. -/
def fnvWrite (h : Nat) (bs : List Nat) : Nat :=
  bs.foldl fnv1Step h

/-- `TokenFor` (distributor.go lines 603-609): hash the tenant id bytes and
then the label-string bytes with `fnv.New32`, and return `Sum32`. -/
def TokenFor (tenantID labels : List Nat) : Nat :=
  fnvWrite (fnvWrite fnvOffset32 tenantID) labels

/-- The 32-bit FNV-1 hash of a whole byte string (multiply, then xor). -/
def fnv1Hash32 (bs : List Nat) : Nat :=
  fnvWrite fnvOffset32 bs

/-- The 32-bit FNV-1a hash of a byte string, following the spec's words:
xor the byte first, then multiply by the FNV prime. -/
def fnv1aHash32 (bs : List Nat) : Nat :=
  bs.foldl (fun h b => ((h ^^^ b) * fnvPrime32) % 2 ^ 32) fnvOffset32

lemma fnvWrite_append (h : Nat) (xs ys : List Nat) :
    fnvWrite h (xs ++ ys) = fnvWrite (fnvWrite h xs) ys := by
  simp [fnvWrite, List.foldl_append]

lemma tokenFor_eq_hash_append (t l : List Nat) :
    TokenFor t l = fnv1Hash32 (t ++ l) := by
  simp [TokenFor, fnv1Hash32, fnvWrite_append]

/-- C3 counterexample: `TokenFor` does not compute the 32-bit FNV-1a hash of
the concatenated input; at tenant id "t1" (bytes 116, 49) and label string
"x" (byte 120) the two hashes differ. -/
theorem tokenFor_ne_fnv1a_at_t1_x :
    TokenFor [116, 49] [120] ≠ fnv1aHash32 ([116, 49] ++ [120]) := by
  decide

/-- C3 (amended): for every tenant id and label string, `TokenFor` equals
the 32-bit FNV-1 hash (multiply-then-xor, Go `fnv.New32`) of the byte
concatenation of tenant id and labels. -/
theorem tokenFor_eq_fnv1_of_concat (t l : List Nat) :
    TokenFor t l = fnv1Hash32 (t ++ l) :=
  tokenFor_eq_hash_append t l

/-- C4 counterexample: two distinct inputs with the same tenant id "t1" and
different label strings ("uszmlnfg" and "crqimn", hence different canonical
strings) receive equal tokens: 32-bit FNV-1 collides. -/
theorem tokenFor_collision :
    TokenFor [116, 49] [117, 115, 122, 109, 108, 110, 102, 103] =
      TokenFor [116, 49] [99, 114, 113, 105, 109, 110] ∧
    [117, 115, 122, 109, 108, 110, 102, 103] ≠ [99, 114, 113, 105, 109, 110] ∧
    [116, 49] ++ [117, 115, 122, 109, 108, 110, 102, 103] ≠
      [116, 49] ++ [99, 114, 113, 105, 109, 110] := by
  refine ⟨by decide, by decide, by decide⟩

/-- C4 (amended): `TokenFor` is deterministic, and inputs whose canonical
byte strings (tenant id concatenated with labels) are equal receive equal
tokens; the converse direction of the claimed equivalence is refuted by the
collision counterexample. -/
theorem tokenFor_deterministic_and_congruent :
    (∀ t l : List Nat, TokenFor t l = TokenFor t l) ∧
    ∀ t₁ l₁ t₂ l₂ : List Nat, t₁ ++ l₁ = t₂ ++ l₂ →
      TokenFor t₁ l₁ = TokenFor t₂ l₂ := by
  refine ⟨fun _ _ => rfl, fun t₁ l₁ t₂ l₂ h => ?_⟩
  rw [tokenFor_eq_hash_append, tokenFor_eq_hash_append, h]

/-- C4 witness: the congruence applied at a concrete pair of inputs with
equal concatenations. -/
theorem tokenFor_deterministic_and_congruent_witness :
    ([97, 98] ++ [99] = [97] ++ [98, 99]) ∧
    TokenFor [97, 98] [99] = TokenFor [97] [98, 99] :=
  ⟨by decide,
   tokenFor_deterministic_and_congruent.2 [97, 98] [99] [97] [98, 99] (by decide)⟩

/-- An ingester instance descriptor (`ring.InstanceDesc`); only the address
is relevant to the distributor model. -/
structure InstanceDesc where
  addr : String
deriving DecidableEq, Repr

/-- A replication set returned by the ingester ring (`ring.ReplicationSet`):
the selected instances and the tolerated number of errors. -/
structure ReplicationSet where
  instances : List InstanceDesc
  maxErrors : Int
deriving DecidableEq, Repr

/-- The quorum fields of a `profileTracker`, together with the replication
set instances the series was assigned to. -/
structure TrackerCounts where
  minSuccess : Int
  maxFailures : Int
  instances : List InstanceDesc
deriving DecidableEq, Repr

/-- The shard-select loop of `PushParsed` (distributor.go lines 351-365):
for each series key the ring (an oracle parameter here) yields a
replication set, and the series' tracker records
`minSuccess = len(Instances) - MaxErrors` and `maxFailures = MaxErrors`. -/
def shardSelect (getReplicationSet : Nat → ReplicationSet) (keys : List Nat) :
    List TrackerCounts :=
  keys.map fun k =>
    { minSuccess := ((getReplicationSet k).instances.length : Int) -
        (getReplicationSet k).maxErrors,
      maxFailures := (getReplicationSet k).maxErrors,
      instances := (getReplicationSet k).instances }

/-- C2: every profile tracker produced by shard selection satisfies
`minSuccess + maxFailures = number of instances in its replication set`,
whatever the ring returns. -/
theorem shardSelect_minSuccess_add_maxFailures
    (getReplicationSet : Nat → ReplicationSet) (keys : List Nat)
    (t : TrackerCounts) (ht : t ∈ shardSelect getReplicationSet keys) :
    t.minSuccess + t.maxFailures = (t.instances.length : Int) := by
  rcases List.mem_map.mp ht with ⟨k, _, rfl⟩
  simp

/-- C2 witness: the invariant instantiated on a concrete ring answer with
three instances and one tolerated error. -/
theorem shardSelect_minSuccess_add_maxFailures_witness :
    (TrackerCounts.mk 2 1 [⟨"a"⟩, ⟨"b"⟩, ⟨"c"⟩] ∈
      shardSelect (fun _ => ⟨[⟨"a"⟩, ⟨"b"⟩, ⟨"c"⟩], 1⟩) [0]) ∧
    (TrackerCounts.mk 2 1 [⟨"a"⟩, ⟨"b"⟩, ⟨"c"⟩]).minSuccess +
      (TrackerCounts.mk 2 1 [⟨"a"⟩, ⟨"b"⟩, ⟨"c"⟩]).maxFailures =
      ((TrackerCounts.mk 2 1 [⟨"a"⟩, ⟨"b"⟩, ⟨"c"⟩]).instances.length : Int) :=
  ⟨by decide,
   shardSelect_minSuccess_add_maxFailures (fun _ => ⟨[⟨"a"⟩, ⟨"b"⟩, ⟨"c"⟩], 1⟩)
     [0] _ (by decide)⟩

/-- One replica acknowledgement processed by `sendProfiles` for the profile
tracker at index `i`: the per-ingester RPC either succeeded or failed for
every series it carried, and the loop at lines 429-445 handles each series
with one atomic counter update. -/
inductive SendEvent
  | success (i : Nat)
  | failure (i : Nat)
deriving DecidableEq, Repr

/-- The tracker index an event refers to. -/
def SendEvent.target : SendEvent → Nat
  | success i => i
  | failure i => i

/-- The shared state of a push: per-tracker `succeeded` / `failed` counters,
the request-level `samplesPending` and `samplesFailed` counters of the
`pushTracker`, and whether the buffered `done` / `err` channels have been
signalled. -/
structure PushState where
  succeeded : Nat → Nat
  failed : Nat → Nat
  samplesPending : Int
  samplesFailed : Nat
  doneFired : Bool
  errFired : Bool

/-- One iteration of the `sendProfiles` loop body (distributor.go lines
429-445): on success, `succeeded.Inc()`; when the new value equals the
tracker's `minSuccess`, `samplesPending.Dec()`, and reaching zero signals
the done channel.  On failure, `failed.Inc()`; when the new value exceeds
`maxFailures`, `samplesFailed.Inc()`, and the first such increment signals
the err channel. -/
def sendProfilesStep (minSuccess maxFailures : Nat → Int) (s : PushState) :
    SendEvent → PushState
  | SendEvent.success i =>
    let v := s.succeeded i + 1
    let s' := { s with succeeded := fun j => if j = i then v else s.succeeded j }
    if (v : Int) = minSuccess i then
      let p := s'.samplesPending - 1
      { s' with samplesPending := p, doneFired := s'.doneFired || decide (p = 0) }
    else s'
  | SendEvent.failure i =>
    let v := s.failed i + 1
    let s' := { s with failed := fun j => if j = i then v else s.failed j }
    if (v : Int) ≤ maxFailures i then s'
    else
      let f := s'.samplesFailed + 1
      { s' with samplesFailed := f, errFired := s'.errFired || decide (f = 1) }

/-- The state at the start of the fan-out: counters at zero and
`samplesPending` initialized to the number of profile trackers
(distributor.go line 370). -/
def initPushState (n : Nat) : PushState :=
  { succeeded := fun _ => 0, failed := fun _ => 0, samplesPending := (n : Int),
    samplesFailed := 0, doneFired := false, errFired := false }

/-- The interleaving semantics of the concurrent fan-out: any sequence of
atomic `sendProfiles` loop iterations, executed from the initial state of a
push over `n` profile trackers. -/
def runPush (minSuccess maxFailures : Nat → Int) (n : Nat)
    (events : List SendEvent) : PushState :=
  events.foldl (sendProfilesStep minSuccess maxFailures) (initPushState n)

/-- The tracker indices whose series already received their success quorum,
given the per-tracker success counters. -/
def hitSetF (minSuccess : Nat → Int) (n : Nat) (succ : Nat → Nat) : Finset Nat :=
  (Finset.range n).filter fun i =>
    1 ≤ minSuccess i ∧ minSuccess i ≤ (succ i : Int)

lemma mem_hitSetF (minSuccess : Nat → Int) (n : Nat) (succ : Nat → Nat)
    (j : Nat) :
    j ∈ hitSetF minSuccess n succ ↔
      j < n ∧ 1 ≤ minSuccess j ∧ minSuccess j ≤ (succ j : Int) := by
  simp [hitSetF]

lemma hitSetF_insert (minSuccess : Nat → Int) (n : Nat) (succ f : Nat → Nat)
    (i : Nat) (hi : i < n) (hfi : f i = succ i + 1)
    (hfj : ∀ j, j ≠ i → f j = succ j)
    (hq : ((succ i + 1 : Nat) : Int) = minSuccess i) :
    hitSetF minSuccess n f = insert i (hitSetF minSuccess n succ) := by
  ext j
  rw [mem_hitSetF, Finset.mem_insert, mem_hitSetF]
  by_cases hji : j = i
  · subst hji
    rw [hfi]
    constructor
    · intro _
      exact Or.inl rfl
    · intro _
      refine ⟨hi, ?_, ?_⟩
      · rw [← hq]; push_cast; omega
      · rw [← hq]
  · rw [hfj j hji]
    constructor
    · intro h
      exact Or.inr h
    · intro h
      rcases h with h | h
      · exact absurd h hji
      · exact h

lemma hitSetF_same (minSuccess : Nat → Int) (n : Nat) (succ f : Nat → Nat)
    (i : Nat) (hfi : f i = succ i + 1)
    (hfj : ∀ j, j ≠ i → f j = succ j)
    (hq : ((succ i + 1 : Nat) : Int) ≠ minSuccess i) :
    hitSetF minSuccess n f = hitSetF minSuccess n succ := by
  ext j
  rw [mem_hitSetF, mem_hitSetF]
  by_cases hji : j = i
  · subst hji
    rw [hfi]
    constructor
    · intro ⟨h1, h2, h3⟩
      refine ⟨h1, h2, ?_⟩
      push_cast at h3 hq ⊢
      omega
    · intro ⟨h1, h2, h3⟩
      refine ⟨h1, h2, ?_⟩
      push_cast at h3 ⊢
      omega
  · rw [hfj j hji]

lemma hitSetF_card_le (minSuccess : Nat → Int) (n : Nat) (succ : Nat → Nat) :
    (hitSetF minSuccess n succ).card ≤ n := by
  calc (hitSetF minSuccess n succ).card ≤ (Finset.range n).card :=
        Finset.card_le_card (Finset.filter_subset _ _)
    _ = n := Finset.card_range n

lemma step_succ_succeeded (minSuccess maxFailures : Nat → Int) (s : PushState)
    (i : Nat) :
    (sendProfilesStep minSuccess maxFailures s (SendEvent.success i)).succeeded =
      fun j => if j = i then s.succeeded i + 1 else s.succeeded j := by
  simp only [sendProfilesStep]
  split <;> rfl

lemma step_succ_pending (minSuccess maxFailures : Nat → Int) (s : PushState)
    (i : Nat) :
    (sendProfilesStep minSuccess maxFailures s (SendEvent.success i)).samplesPending =
      if ((s.succeeded i + 1 : Nat) : Int) = minSuccess i then s.samplesPending - 1
      else s.samplesPending := by
  simp only [sendProfilesStep]
  split <;> rfl

lemma step_succ_done (minSuccess maxFailures : Nat → Int) (s : PushState)
    (i : Nat) :
    (sendProfilesStep minSuccess maxFailures s (SendEvent.success i)).doneFired =
      if ((s.succeeded i + 1 : Nat) : Int) = minSuccess i then
        s.doneFired || decide (s.samplesPending - 1 = 0)
      else s.doneFired := by
  simp only [sendProfilesStep]
  split <;> rfl

lemma step_fail_succeeded (minSuccess maxFailures : Nat → Int) (s : PushState)
    (i : Nat) :
    (sendProfilesStep minSuccess maxFailures s (SendEvent.failure i)).succeeded =
      s.succeeded := by
  simp only [sendProfilesStep]
  split <;> rfl

lemma step_fail_pending (minSuccess maxFailures : Nat → Int) (s : PushState)
    (i : Nat) :
    (sendProfilesStep minSuccess maxFailures s (SendEvent.failure i)).samplesPending =
      s.samplesPending := by
  simp only [sendProfilesStep]
  split <;> rfl

lemma step_fail_done (minSuccess maxFailures : Nat → Int) (s : PushState)
    (i : Nat) :
    (sendProfilesStep minSuccess maxFailures s (SendEvent.failure i)).doneFired =
      s.doneFired := by
  simp only [sendProfilesStep]
  split <;> rfl

/-- The state invariant of the quorum tracker: `samplesPending` counts the
trackers still missing their quorum, and the done channel is signalled only
after every tracker reached it. -/
def pushInv (minSuccess : Nat → Int) (n : Nat) (s : PushState) : Prop :=
  s.samplesPending = (n : Int) - ((hitSetF minSuccess n s.succeeded).card : Int) ∧
    (s.doneFired = true → (hitSetF minSuccess n s.succeeded).card = n)

lemma pushInv_init (minSuccess : Nat → Int) (n : Nat) :
    pushInv minSuccess n (initPushState n) := by
  have h : hitSetF minSuccess n (initPushState n).succeeded = ∅ := by
    ext i
    rw [mem_hitSetF]
    simp only [Finset.not_mem_empty, iff_false]
    intro ⟨_, h1, h2⟩
    simp only [initPushState] at h2
    omega
  constructor
  · rw [h]
    simp [initPushState]
  · intro hd
    simp [initPushState] at hd

lemma pushInv_step (minSuccess maxFailures : Nat → Int) (n : Nat)
    (s : PushState) (e : SendEvent) (he : e.target < n)
    (hs : pushInv minSuccess n s) :
    pushInv minSuccess n (sendProfilesStep minSuccess maxFailures s e) := by
  obtain ⟨hp, hd⟩ := hs
  cases e with
  | success i =>
    have hi : i < n := he
    by_cases hq : ((s.succeeded i + 1 : Nat) : Int) = minSuccess i
    · have hnm : i ∉ hitSetF minSuccess n s.succeeded := by
        rw [mem_hitSetF]
        intro ⟨_, h1, h2⟩
        rw [← hq] at h2
        push_cast at h2
        omega
      have hset : hitSetF minSuccess n
          (sendProfilesStep minSuccess maxFailures s (SendEvent.success i)).succeeded =
          insert i (hitSetF minSuccess n s.succeeded) := by
        rw [step_succ_succeeded]
        exact hitSetF_insert minSuccess n s.succeeded _ i hi (if_pos rfl)
          (fun j hj => if_neg hj) hq
      have hcard : (hitSetF minSuccess n
          (sendProfilesStep minSuccess maxFailures s (SendEvent.success i)).succeeded).card =
          (hitSetF minSuccess n s.succeeded).card + 1 := by
        rw [hset, Finset.card_insert_of_not_mem hnm]
      constructor
      · rw [step_succ_pending, if_pos hq, hcard, hp]
        push_cast
        ring
      · rw [step_succ_done, if_pos hq, hcard]
        intro hfired
        rw [Bool.or_eq_true] at hfired
        rcases hfired with hf | hf
        · exfalso
          have h1 := hd hf
          have hfull : hitSetF minSuccess n s.succeeded = Finset.range n := by
            apply Finset.eq_of_subset_of_card_le (Finset.filter_subset _ _)
            show (Finset.range n).card ≤ (hitSetF minSuccess n s.succeeded).card
            rw [h1, Finset.card_range]
          exact hnm (by rw [hfull]; exact Finset.mem_range.mpr hi)
        · have hz : s.samplesPending - 1 = 0 := of_decide_eq_true hf
          rw [hp] at hz
          have h2 := hitSetF_card_le minSuccess n s.succeeded
          omega
    · have hset : hitSetF minSuccess n
          (sendProfilesStep minSuccess maxFailures s (SendEvent.success i)).succeeded =
          hitSetF minSuccess n s.succeeded := by
        rw [step_succ_succeeded]
        exact hitSetF_same minSuccess n s.succeeded _ i (if_pos rfl)
          (fun j hj => if_neg hj) hq
      constructor
      · rw [step_succ_pending, if_neg hq, hset]
        exact hp
      · rw [step_succ_done, if_neg hq, hset]
        exact hd
  | failure i =>
    have hset : hitSetF minSuccess n
        (sendProfilesStep minSuccess maxFailures s (SendEvent.failure i)).succeeded =
        hitSetF minSuccess n s.succeeded := by
      rw [step_fail_succeeded]
    constructor
    · rw [step_fail_pending, hset]
      exact hp
    · rw [step_fail_done, hset]
      exact hd

lemma pushInv_run (minSuccess maxFailures : Nat → Int) (n : Nat)
    (events : List SendEvent) (hT : ∀ e ∈ events, e.target < n) :
    pushInv minSuccess n (runPush minSuccess maxFailures n events) := by
  rw [runPush]
  have h : ∀ (s : PushState), pushInv minSuccess n s →
      pushInv minSuccess n
        (events.foldl (sendProfilesStep minSuccess maxFailures) s) := by
    induction events with
    | nil =>
      intro s hs
      exact hs
    | cons e rest ih =>
      intro s hs
      have he : e.target < n := hT e (List.mem_cons_self e rest)
      have hrest : ∀ e' ∈ rest, e'.target < n :=
        fun e' h' => hT e' (List.mem_cons_of_mem e h')
      exact ih hrest _ (pushInv_step minSuccess maxFailures n s e he hs)
  exact h _ (pushInv_init minSuccess n)

/-- C1: in every interleaved execution of the `sendProfiles` loop bodies in
which the done channel fired (the push returned success), every profile
tracker's series received at least `minSuccess` successful replica
acknowledgements. -/
theorem runPush_done_implies_quorum (minSuccess maxFailures : Nat → Int)
    (n : Nat) (events : List SendEvent)
    (hT : ∀ e ∈ events, e.target < n)
    (hdone : (runPush minSuccess maxFailures n events).doneFired = true) :
    ∀ i < n, minSuccess i ≤
      ((runPush minSuccess maxFailures n events).succeeded i : Int) := by
  intro i hi
  obtain ⟨_, hd⟩ := pushInv_run minSuccess maxFailures n events hT
  have hcard := hd hdone
  have hsubset : hitSetF minSuccess n
      (runPush minSuccess maxFailures n events).succeeded ⊆ Finset.range n :=
    Finset.filter_subset _ _
  have hfull : hitSetF minSuccess n
      (runPush minSuccess maxFailures n events).succeeded = Finset.range n := by
    apply Finset.eq_of_subset_of_card_le hsubset
    rw [hcard, Finset.card_range]
  have hmem : i ∈ hitSetF minSuccess n
      (runPush minSuccess maxFailures n events).succeeded := by
    rw [hfull]
    exact Finset.mem_range.mpr hi
  exact ((mem_hitSetF _ _ _ _).mp hmem).2.2

/-- C1 witness: a single-tracker push with `minSuccess = 1` where one
successful acknowledgement fires the done channel; the quorum bound holds in
the final state. -/
theorem runPush_done_implies_quorum_witness :
    (∀ e ∈ [SendEvent.success 0], e.target < 1) ∧
    (runPush (fun _ => 1) (fun _ => 0) 1 [SendEvent.success 0]).doneFired = true ∧
    ∀ i < 1, (1 : Int) ≤
      ((runPush (fun _ => 1) (fun _ => 0) 1 [SendEvent.success 0]).succeeded i : Int) :=
  ⟨by decide, by decide,
   runPush_done_implies_quorum (fun _ => 1) (fun _ => 0) 1 [SendEvent.success 0]
     (by decide) (by decide)⟩

/-- Modelled from the spec: a pprof sample label; `key` and `str` index the
profile's string table (the numeric label fields are not used by any
modelled operation). -/
structure PprofLabel where
  key : Nat
  str : Nat
deriving DecidableEq, Repr

/-- Modelled from the spec: a pprof sample, carrying its label list and its
values (standing in for the stack and value payload, which the modelled
operations never inspect). -/
structure Sample where
  labels : List PprofLabel
  values : List Int
deriving DecidableEq, Repr

/-- Modelled from the spec: a decoded pprof profile, a string table plus a
sample list. -/
structure Profile where
  stringTable : List String
  sample : List Sample
deriving DecidableEq, Repr

/-- Resolution of a string-table index, as Go `p.StringTable[i]`; the model
totalizes the partial lookup with the empty string. -/
def strTab (p : Profile) (i : Nat) : String :=
  p.stringTable.getD i ""

/-- The `__name__` reserved label name (distributor.go line 57). -/
def profileNameLabel : String := "__name__"

/-- Modelled from the spec: `pprof.ProfileIDLabelName`. -/
def profileIDLabelName : String := "profile_id"

/-- Modelled from the spec: `pprof.SpanIDLabelName`. -/
def spanIDLabelName : String := "span_id"

/-- Modelled from the spec: `phlaremodel.LabelNameServiceName`. -/
def serviceNameLabel : String := "service_name"

/-- Modelled from the spec: `phlaremodel.LabelNameSessionID`. -/
def sessionIDLabelName : String := "session_id"

/-- Index of a string in the table, appending the string when absent
(helper of `renameLabel`; existing indices are unchanged). -/
def ensureString (st : List String) (s : String) : List String × Nat :=
  match st.indexOf? s with
  | some i => (st, i)
  | none => (st ++ [s], st.length)

/-- Modelled from the spec: `pprof.RenameLabel` rewrites every sample label
whose key resolves to `old` so that it resolves to `new`; a profile in
which no sample label is keyed by `old` is left unchanged. -/
def renameLabel (p : Profile) (old new : String) : Profile :=
  if p.sample.any (fun s => s.labels.any fun l => strTab p l.key == old) then
    { stringTable := (ensureString p.stringTable new).1,
      sample := p.sample.map fun s =>
        { s with labels := s.labels.map fun l =>
            if strTab p l.key = old then
              { l with key := (ensureString p.stringTable new).2 }
            else l } }
  else p

/-- Modelled from the spec: `pprof.Profile.Normalize`; the spec leaves the
normalization unspecified beyond its happening in place, so the model
treats it as the identity (in particular it preserves the sample list). -/
def pprofNormalize (p : Profile) : Profile := p

/-- Modelled from the spec: a group of samples sharing one sample-label set
(`pprof.SampleGroup`). -/
structure SampleGroup where
  labels : List PprofLabel
  samples : List Sample
deriving DecidableEq, Repr

/-- Helper of the grouping: route one sample into the group carrying its
label set, appending a fresh group when none exists yet. -/
def addSampleToGroups (gs : List SampleGroup) (s : Sample) : List SampleGroup :=
  match gs with
  | [] => [⟨s.labels, [s]⟩]
  | g :: rest =>
    if g.labels = s.labels then ⟨g.labels, g.samples ++ [s]⟩ :: rest
    else g :: addSampleToGroups rest s

/-- Modelled from the spec: `pprof.GroupSamplesWithoutLabels` groups the
profile's samples by their sample-label set (spec §4.1 step 7 together with
E3: after the `profile_id` → `span_id` rename, the sample's remaining label
set, span label included, is the group key); groups appear in order of
first occurrence. -/
def groupSamplesWithoutLabels (p : Profile) : List SampleGroup :=
  p.sample.foldl addSampleToGroups []

/-- Modelled from the spec: `pprof.NewSampleExporter` / `ExportSamples`
export just the given samples into a new profile (the model keeps the
source profile's string table for the copied samples). -/
def exportSamples (src : Profile) (samples : List Sample) : Profile :=
  { stringTable := src.stringTable, sample := samples }

/-- Resolution of a pprof sample label into a series label through the
profile's string table, as in `mergeSeriesAndSampleLabels`. -/
def resolveLabel (p : Profile) (l : PprofLabel) : LabelPair :=
  ⟨strTab p l.key, strTab p l.str⟩

/-- `mergeSeriesAndSampleLabels` (distributor.go lines 565-577): clone the
series labels, append the sample labels resolved through the profile's
string table, sort stably by name and de-duplicate keeping the first of
each name. -/
def mergeSeriesAndSampleLabels (p : Profile) (sl : List LabelPair)
    (pl : List PprofLabel) : List LabelPair :=
  uniqueLabels (sortLabels (cloneLabels sl ++ pl.map (resolveLabel p)))

/-- The labels of a list carrying a given name, in order (the observable
through which stability of the merge is stated). -/
def filterName (n : String) (ls : List LabelPair) : List LabelPair :=
  ls.filter fun a => decide (a.name = n)

lemma filterName_cons (n : String) (a : LabelPair) (l : List LabelPair) :
    filterName n (a :: l) =
      if a.name = n then a :: filterName n l else filterName n l := by
  simp only [filterName, List.filter_cons, decide_eq_true_eq]

lemma filterName_append (n : String) (l₁ l₂ : List LabelPair) :
    filterName n (l₁ ++ l₂) = filterName n l₁ ++ filterName n l₂ := by
  simp [filterName, List.filter_append]

lemma filterName_orderedInsert (n : String) (x : LabelPair)
    (l : List LabelPair) :
    filterName n (List.orderedInsert labelLE x l) =
      if x.name = n then x :: filterName n l else filterName n l := by
  induction l with
  | nil =>
    simp only [List.orderedInsert_nil, filterName_cons]
  | cons y ys ih =>
    simp only [List.orderedInsert]
    by_cases hxy : labelLE x y
    · rw [if_pos hxy, filterName_cons]
    · rw [if_neg hxy, filterName_cons, ih, filterName_cons]
      by_cases hx : x.name = n
      · have hy : y.name ≠ n := fun hyn => hxy (le_of_eq (hx.trans hyn.symm))
        simp [hx, hy]
      · by_cases hy : y.name = n
        · simp [hx, hy]
        · simp [hx, hy]

lemma filterName_insertionSort (n : String) (l : List LabelPair) :
    filterName n (List.insertionSort labelLE l) = filterName n l := by
  induction l with
  | nil => rfl
  | cons a l ih =>
    simp only [List.insertionSort]
    rw [filterName_orderedInsert, ih, filterName_cons]

lemma lookupLabel_eq_filterName_head (n : String) (ls : List LabelPair) :
    lookupLabel n ls = (filterName n ls).head?.map LabelPair.value := by
  induction ls with
  | nil => rfl
  | cons a l ih =>
    simp only [lookupLabel]
    rw [filterName_cons]
    by_cases h : a.name = n
    · rw [if_pos h, if_pos h]
      rfl
    · rw [if_neg h, if_neg h, ih]

lemma lookupLabel_uniqueLabels (n : String) (ls : List LabelPair) :
    lookupLabel n (uniqueLabels ls) = lookupLabel n ls := by
  induction ls using uniqueLabels.induct with
  | case1 => simp [uniqueLabels]
  | case2 l => simp [uniqueLabels]
  | case3 a b ls hab ih =>
    rw [uniqueLabels, if_pos hab, ih]
    by_cases h : a.name = n
    · simp [lookupLabel, h]
    · have hb : ¬ b.name = n := fun hbn => h (hab.trans hbn)
      simp [lookupLabel, h, hb]
  | case4 a b ls hab ih =>
    rw [uniqueLabels, if_neg hab]
    by_cases h : a.name = n
    · simp [lookupLabel, h]
    · simp [lookupLabel, h, ih]

lemma uniqueLabels_sublist (ls : List LabelPair) :
    (uniqueLabels ls).Sublist ls := by
  induction ls using uniqueLabels.induct with
  | case1 => simp [uniqueLabels]
  | case2 l => simp [uniqueLabels]
  | case3 a b ls hab ih =>
    rw [uniqueLabels, if_pos hab]
    exact ih.trans (List.Sublist.cons₂ a (List.sublist_cons_self b ls))
  | case4 a b ls hab ih =>
    rw [uniqueLabels, if_neg hab]
    exact List.Sublist.cons₂ a ih

lemma uniqueLabels_sorted (ls : List LabelPair) (hs : sortedByName ls) :
    sortedByName (uniqueLabels ls) :=
  List.Pairwise.sublist (uniqueLabels_sublist ls) hs

lemma uniqueLabels_uniqueNames (ls : List LabelPair) (hs : sortedByName ls) :
    uniqueNames (uniqueLabels ls) := by
  induction ls using uniqueLabels.induct with
  | case1 => simp [uniqueLabels, uniqueNames]
  | case2 l => simp [uniqueLabels, uniqueNames]
  | case3 a b ls hab ih =>
    rw [uniqueLabels, if_pos hab]
    apply ih
    have hsub : (a :: ls).Sublist (a :: b :: ls) :=
      List.Sublist.cons₂ a (List.sublist_cons_self b ls)
    exact List.Pairwise.sublist hsub hs
  | case4 a b ls hab ih =>
    rw [uniqueLabels, if_neg hab]
    have htail : sortedByName (b :: ls) := hs.of_cons
    have ih' := ih htail
    rw [uniqueNames, List.map_cons, List.nodup_cons]
    refine ⟨?_, ih'⟩
    intro hmem
    rcases List.mem_map.mp hmem with ⟨x, hx, hxname⟩
    have hx' : x ∈ b :: ls := (uniqueLabels_sublist (b :: ls)).subset hx
    rcases List.mem_cons.mp hx' with rfl | hx''
    · exact hab hxname.symm
    · have h1 : a.name ≤ b.name := List.rel_of_sorted_cons hs b (List.mem_cons_self b ls)
      have h2 : b.name ≤ x.name := List.rel_of_sorted_cons htail x hx''
      have h3 : x.name = a.name := hxname
      exact hab (le_antisymm h1 (h3 ▸ h2))

lemma uniqueLabels_eq_self (ls : List LabelPair) (hu : uniqueNames ls) :
    uniqueLabels ls = ls := by
  induction ls using uniqueLabels.induct with
  | case1 => simp [uniqueLabels]
  | case2 l => simp [uniqueLabels]
  | case3 a b ls hab ih =>
    exfalso
    rw [uniqueNames, List.map_cons, List.nodup_cons] at hu
    exact hu.1 (by rw [hab]; exact List.mem_cons_self b.name _)
  | case4 a b ls hab ih =>
    rw [uniqueLabels, if_neg hab]
    rw [uniqueNames, List.map_cons, List.nodup_cons] at hu
    rw [ih hu.2]

lemma sortLabels_sorted (ls : List LabelPair) : sortedByName (sortLabels ls) :=
  List.sorted_insertionSort labelLE ls

lemma mem_sortLabels {x : LabelPair} {ls : List LabelPair} :
    x ∈ sortLabels ls ↔ x ∈ ls :=
  List.mem_insertionSort labelLE

lemma filterName_sortLabels (n : String) (l : List LabelPair) :
    filterName n (sortLabels l) = filterName n l :=
  filterName_insertionSort n l

/-- C7: `mergeSeriesAndSampleLabels` resolves sample labels through the
profile's string table, returns a name-sorted, name-unique list in which
the series label wins over any sample label of the same name (stability of
the sort plus keep-first de-duplication), and merging with an empty
sample-label group returns the series labels unchanged. -/
theorem mergeSeriesAndSampleLabels_spec (p : Profile) (sl : List LabelPair)
    (pl : List PprofLabel) (hs : sortedByName sl) (hu : uniqueNames sl) :
    sortedByName (mergeSeriesAndSampleLabels p sl pl) ∧
    uniqueNames (mergeSeriesAndSampleLabels p sl pl) ∧
    (∀ x ∈ mergeSeriesAndSampleLabels p sl pl,
      x ∈ sl ∨ x ∈ pl.map (resolveLabel p)) ∧
    (∀ n, (∃ x ∈ sl, x.name = n) →
      lookupLabel n (mergeSeriesAndSampleLabels p sl pl) = lookupLabel n sl) ∧
    mergeSeriesAndSampleLabels p sl [] = sl := by
  refine ⟨?_, ?_, ?_, ?_, ?_⟩
  · exact uniqueLabels_sorted _ (sortLabels_sorted _)
  · exact uniqueLabels_uniqueNames _ (sortLabels_sorted _)
  · intro x hx
    have h1 : x ∈ sortLabels (cloneLabels sl ++ pl.map (resolveLabel p)) :=
      (uniqueLabels_sublist _).subset hx
    have h2 : x ∈ cloneLabels sl ++ pl.map (resolveLabel p) :=
      mem_sortLabels.mp h1
    exact List.mem_append.mp h2
  · intro n hn
    rcases hn with ⟨x, hx, hxn⟩
    rw [mergeSeriesAndSampleLabels, lookupLabel_uniqueLabels,
      lookupLabel_eq_filterName_head, filterName_sortLabels, filterName_append]
    have hxmem : x ∈ filterName n (cloneLabels sl) := by
      rw [filterName, List.mem_filter]
      exact ⟨hx, by simp [hxn]⟩
    have hne : filterName n (cloneLabels sl) ≠ [] := by
      intro hnil
      rw [hnil] at hxmem
      exact List.not_mem_nil x hxmem
    rw [List.head?_append_of_ne_nil _ hne, ← lookupLabel_eq_filterName_head]
    rfl
  · rw [mergeSeriesAndSampleLabels]
    simp only [List.map_nil, List.append_nil, cloneLabels]
    rw [show sortLabels sl = sl from hs.insertionSort_eq,
      uniqueLabels_eq_self sl hu]

/-- C7 witness: the merge specification instantiated at a concrete sorted,
name-unique series-label list and one sample label resolving to
`span_id="abc"`. -/
theorem mergeSeriesAndSampleLabels_spec_witness :
    (sortedByName [LabelPair.mk "__name__" "cpu", LabelPair.mk "service_name" "svc"] ∧
     uniqueNames [LabelPair.mk "__name__" "cpu", LabelPair.mk "service_name" "svc"]) ∧
    (sortedByName (mergeSeriesAndSampleLabels ⟨["", "span_id", "abc"], []⟩
        [LabelPair.mk "__name__" "cpu", LabelPair.mk "service_name" "svc"]
        [PprofLabel.mk 1 2]) ∧
     uniqueNames (mergeSeriesAndSampleLabels ⟨["", "span_id", "abc"], []⟩
        [LabelPair.mk "__name__" "cpu", LabelPair.mk "service_name" "svc"]
        [PprofLabel.mk 1 2]) ∧
     (∀ x ∈ mergeSeriesAndSampleLabels ⟨["", "span_id", "abc"], []⟩
        [LabelPair.mk "__name__" "cpu", LabelPair.mk "service_name" "svc"]
        [PprofLabel.mk 1 2],
        x ∈ [LabelPair.mk "__name__" "cpu", LabelPair.mk "service_name" "svc"] ∨
        x ∈ [PprofLabel.mk 1 2].map (resolveLabel ⟨["", "span_id", "abc"], []⟩)) ∧
     (∀ n, (∃ x ∈ [LabelPair.mk "__name__" "cpu", LabelPair.mk "service_name" "svc"],
        x.name = n) →
        lookupLabel n (mergeSeriesAndSampleLabels ⟨["", "span_id", "abc"], []⟩
          [LabelPair.mk "__name__" "cpu", LabelPair.mk "service_name" "svc"]
          [PprofLabel.mk 1 2]) =
        lookupLabel n [LabelPair.mk "__name__" "cpu", LabelPair.mk "service_name" "svc"]) ∧
     mergeSeriesAndSampleLabels ⟨["", "span_id", "abc"], []⟩
        [LabelPair.mk "__name__" "cpu", LabelPair.mk "service_name" "svc"] [] =
        [LabelPair.mk "__name__" "cpu", LabelPair.mk "service_name" "svc"]) :=
  ⟨⟨by decide, by decide⟩,
   mergeSeriesAndSampleLabels_spec ⟨["", "span_id", "abc"], []⟩
     [LabelPair.mk "__name__" "cpu", LabelPair.mk "service_name" "svc"]
     [PprofLabel.mk 1 2] (by decide) (by decide)⟩

/-- `distributormodel.ProfileSample`: a parsed profile together with its
raw bytes and opaque sample id. -/
structure ProfileSample where
  profile : Profile
  rawProfile : List Nat
  id : String
deriving DecidableEq, Repr

/-- `distributormodel.ProfileSeries`: series labels plus profile samples. -/
structure ProfileSeries where
  labels : List LabelPair
  samples : List ProfileSample
deriving DecidableEq, Repr

/-- `distributormodel.PushRequest`: the parsed push request handled by
`PushParsed`. -/
structure PushRequest where
  series : List ProfileSeries
deriving DecidableEq, Repr

/-- The guard of `extractSampleSeries` (line 517): no groups at all, or a
single group carrying no labels. -/
def sampleGroupsTrivial : List SampleGroup → Bool
  | [] => true
  | [g] => g.labels.isEmpty
  | _ => false

/-- The inner loop of `extractSampleSeries` (lines 513-539) over one
series' samples: normalize and rename each sample's profile, group by
sample labels; a sample with trivial groups is kept for the original
series, otherwise each group is exported into a new profile and emitted as
a new series under the merged labels.  Returns the kept samples, the new
series and the newly allocated profiles, in order. -/
def processSamples (sl : List LabelPair) :
    List ProfileSample → List ProfileSample × List ProfileSeries × List Profile
  | [] => ([], [], [])
  | raw :: rest =>
    let p := renameLabel (pprofNormalize raw.profile) profileIDLabelName spanIDLabelName
    let raw' : ProfileSample := { raw with profile := p }
    let groups := groupSamplesWithoutLabels p
    let r := processSamples sl rest
    if sampleGroupsTrivial groups then
      (raw' :: r.1, r.2.1, r.2.2)
    else
      (r.1,
       groups.map (fun g =>
         { labels := mergeSeriesAndSampleLabels p sl g.labels,
           samples := [{ profile := exportSamples p g.samples,
                         rawProfile := [], id := "" }] }) ++ r.2.1,
       groups.map (fun g => exportSamples p g.samples) ++ r.2.2)

/-- `extractSampleSeries` (distributor.go lines 505-545): split every
series' samples by sample-label group; the split-off series of one input
series precede its kept series, which is emitted only when it kept at
least one sample. -/
def extractSampleSeries (req : PushRequest) :
    List ProfileSeries × List Profile :=
  req.series.foldr
    (fun series acc =>
      let r := processSamples series.labels series.samples
      (r.2.1 ++
        (if r.1.isEmpty then []
         else [{ labels := series.labels, samples := r.1 }]) ++
        acc.1,
       r.2.2 ++ acc.2))
    ([], [])

/-- Number of pprof samples carried by one profile series. -/
def seriesSampleCount (s : ProfileSeries) : Nat :=
  (s.samples.map fun r => r.profile.sample.length).sum

/-- Number of pprof samples carried by a list of series. -/
def totalSampleCount (ss : List ProfileSeries) : Nat :=
  (ss.map seriesSampleCount).sum

/-- Number of samples collected in a list of sample groups. -/
def groupsSize (gs : List SampleGroup) : Nat :=
  (gs.map fun g => g.samples.length).sum

lemma groupsSize_add (gs : List SampleGroup) (s : Sample) :
    groupsSize (addSampleToGroups gs s) = groupsSize gs + 1 := by
  induction gs with
  | nil => simp [addSampleToGroups, groupsSize]
  | cons g rest ih =>
    rw [addSampleToGroups]
    by_cases h : g.labels = s.labels
    · rw [if_pos h]
      simp only [groupsSize, List.map_cons, List.sum_cons, List.length_append,
        List.length_cons, List.length_nil]
      omega
    · rw [if_neg h]
      simp only [groupsSize, List.map_cons, List.sum_cons] at ih ⊢
      omega

lemma groupsSize_foldl (ss : List Sample) (gs : List SampleGroup) :
    groupsSize (ss.foldl addSampleToGroups gs) = groupsSize gs + ss.length := by
  induction ss generalizing gs with
  | nil => simp
  | cons s rest ih =>
    rw [List.foldl_cons, ih, groupsSize_add]
    simp only [List.length_cons]
    omega

lemma groupsSize_groupSamples (p : Profile) :
    groupsSize (groupSamplesWithoutLabels p) = p.sample.length := by
  rw [groupSamplesWithoutLabels, groupsSize_foldl]
  simp [groupsSize]

lemma renameLabel_sample_length (p : Profile) (old new : String) :
    (renameLabel p old new).sample.length = p.sample.length := by
  rw [renameLabel]
  split
  · simp
  · rfl

lemma addSampleToGroups_has_key (gs : List SampleGroup) (s : Sample) :
    ∃ g ∈ addSampleToGroups gs s, g.labels = s.labels := by
  induction gs with
  | nil => exact ⟨⟨s.labels, [s]⟩, by simp [addSampleToGroups]⟩
  | cons g rest ih =>
    rw [addSampleToGroups]
    by_cases h : g.labels = s.labels
    · rw [if_pos h]
      exact ⟨⟨g.labels, g.samples ++ [s]⟩, List.mem_cons_self _ _, h⟩
    · rw [if_neg h]
      rcases ih with ⟨g', hg', hlab⟩
      exact ⟨g', List.mem_cons_of_mem g hg', hlab⟩

lemma addSampleToGroups_keeps_key (gs : List SampleGroup) (s : Sample)
    (g : SampleGroup) (hg : g ∈ gs) :
    ∃ g' ∈ addSampleToGroups gs s, g'.labels = g.labels := by
  induction gs with
  | nil => cases hg
  | cons g0 rest ih =>
    rw [addSampleToGroups]
    by_cases h : g0.labels = s.labels
    · rw [if_pos h]
      rcases List.mem_cons.mp hg with heq | hg'
      · refine ⟨⟨g0.labels, g0.samples ++ [s]⟩, List.mem_cons_self _ _, ?_⟩
        rw [heq]
      · exact ⟨g, List.mem_cons_of_mem _ hg', rfl⟩
    · rw [if_neg h]
      rcases List.mem_cons.mp hg with heq | hg'
      · refine ⟨g0, List.mem_cons_self _ _, ?_⟩
        rw [heq]
      · rcases ih hg' with ⟨g', hg'', hlab⟩
        exact ⟨g', List.mem_cons_of_mem _ hg'', hlab⟩

lemma foldl_keeps_key (ss : List Sample) (gs : List SampleGroup)
    (g : SampleGroup) (hg : g ∈ gs) :
    ∃ g' ∈ ss.foldl addSampleToGroups gs, g'.labels = g.labels := by
  induction ss generalizing gs g with
  | nil => exact ⟨g, hg, rfl⟩
  | cons s rest ih =>
    rw [List.foldl_cons]
    rcases addSampleToGroups_keeps_key gs s g hg with ⟨g', hg', hlab⟩
    rcases ih (addSampleToGroups gs s) g' hg' with ⟨g'', hg'', hlab'⟩
    exact ⟨g'', hg'', hlab'.trans hlab⟩

lemma groupSamples_covers (p : Profile) (s : Sample) (hs : s ∈ p.sample) :
    ∃ g ∈ groupSamplesWithoutLabels p, g.labels = s.labels := by
  rw [groupSamplesWithoutLabels]
  have h : ∀ (ss : List Sample) (gs : List SampleGroup), s ∈ ss →
      ∃ g ∈ ss.foldl addSampleToGroups gs, g.labels = s.labels := by
    intro ss
    induction ss with
    | nil => intro gs h; cases h
    | cons s0 rest ih =>
      intro gs hmem
      rw [List.foldl_cons]
      rcases List.mem_cons.mp hmem with rfl | hmem'
      · rcases addSampleToGroups_has_key gs s with ⟨g, hg, hlab⟩
        exact foldl_keeps_key rest _ g hg |>.imp
          fun g' ⟨hg', hlab'⟩ => ⟨hg', hlab'.trans hlab⟩
      · exact ih _ hmem'
  exact h p.sample [] hs

lemma trivial_groups_all_empty (p : Profile)
    (h : sampleGroupsTrivial (groupSamplesWithoutLabels p) = true) :
    ∀ s ∈ p.sample, s.labels = [] := by
  intro s hs
  rcases groupSamples_covers p s hs with ⟨g, hg, hlab⟩
  rcases hgroups : groupSamplesWithoutLabels p with _ | ⟨g0, rest⟩
  · rw [hgroups] at hg
    cases hg
  · rcases rest with _ | ⟨g1, rest'⟩
    · rw [hgroups] at hg h
      rcases List.mem_cons.mp hg with heq | hg'
      · simp only [sampleGroupsTrivial] at h
        rw [← hlab, heq]
        exact List.isEmpty_iff.mp h
      · cases hg'
    · rw [hgroups] at h
      simp [sampleGroupsTrivial] at h

lemma renameLabel_no_labels (p : Profile) (old new : String)
    (h : ∀ s ∈ p.sample, s.labels = []) :
    renameLabel p old new = p := by
  rw [renameLabel, if_neg]
  intro hany
  rw [List.any_eq_true] at hany
  rcases hany with ⟨s, hs, hinner⟩
  rw [h s hs] at hinner
  simp at hinner

lemma totalSampleCount_append (l₁ l₂ : List ProfileSeries) :
    totalSampleCount (l₁ ++ l₂) = totalSampleCount l₁ + totalSampleCount l₂ := by
  simp [totalSampleCount]

lemma totalSampleCount_groupSeries (p : Profile) (sl : List LabelPair)
    (gs : List SampleGroup) :
    totalSampleCount (gs.map fun g =>
      ({ labels := mergeSeriesAndSampleLabels p sl g.labels,
         samples := [{ profile := exportSamples p g.samples,
                       rawProfile := [], id := "" }] } : ProfileSeries)) =
      groupsSize gs := by
  induction gs with
  | nil => rfl
  | cons g rest ih =>
    simp only [List.map_cons, totalSampleCount, List.sum_cons] at ih ⊢
    rw [ih]
    simp only [groupsSize, List.map_cons, List.sum_cons]
    congr 1

lemma processSamples_count (sl : List LabelPair) (raws : List ProfileSample) :
    ((processSamples sl raws).1.map fun r => r.profile.sample.length).sum +
      totalSampleCount (processSamples sl raws).2.1 =
      (raws.map fun r => r.profile.sample.length).sum := by
  induction raws with
  | nil => simp [processSamples, totalSampleCount]
  | cons raw rest ih =>
    simp only [processSamples]
    by_cases hT : sampleGroupsTrivial (groupSamplesWithoutLabels
        (renameLabel (pprofNormalize raw.profile) profileIDLabelName
          spanIDLabelName)) = true
    · rw [if_pos hT]
      simp only [List.map_cons, List.sum_cons]
      have hlen : (renameLabel (pprofNormalize raw.profile) profileIDLabelName
          spanIDLabelName).sample.length = raw.profile.sample.length :=
        renameLabel_sample_length _ _ _
      simp only [pprofNormalize] at hlen ⊢
      rw [hlen]
      omega
    · rw [if_neg hT]
      rw [totalSampleCount_append, totalSampleCount_groupSeries,
        groupsSize_groupSamples, renameLabel_sample_length]
      simp only [pprofNormalize, List.map_cons, List.sum_cons]
      omega

lemma processSamples_keeps (sl : List LabelPair) (raws : List ProfileSample)
    (raw : ProfileSample) (hmem : raw ∈ raws)
    (htriv : sampleGroupsTrivial (groupSamplesWithoutLabels raw.profile) = true) :
    raw ∈ (processSamples sl raws).1 := by
  induction raws with
  | nil => cases hmem
  | cons raw0 rest ih =>
    rcases List.mem_cons.mp hmem with heq | hmem'
    · subst heq
      have hren : renameLabel (pprofNormalize raw.profile) profileIDLabelName
          spanIDLabelName = raw.profile :=
        renameLabel_no_labels _ _ _ (trivial_groups_all_empty raw.profile htriv)
      simp only [processSamples]
      rw [hren, if_pos htriv]
      exact List.mem_cons_self raw _
    · simp only [processSamples]
      by_cases hT : sampleGroupsTrivial (groupSamplesWithoutLabels
          (renameLabel (pprofNormalize raw0.profile) profileIDLabelName
            spanIDLabelName)) = true
      · rw [if_pos hT]
        exact List.mem_cons_of_mem _ (ih hmem')
      · rw [if_neg hT]
        exact ih hmem'

lemma extract_count (ss : List ProfileSeries) :
    totalSampleCount (extractSampleSeries ⟨ss⟩).1 = totalSampleCount ss := by
  induction ss with
  | nil => rfl
  | cons series rest ih =>
    have hstep : (extractSampleSeries ⟨series :: rest⟩).1 =
        ((processSamples series.labels series.samples).2.1 ++
         (if (processSamples series.labels series.samples).1.isEmpty then []
          else [{ labels := series.labels,
                  samples := (processSamples series.labels series.samples).1 }])) ++
        (extractSampleSeries ⟨rest⟩).1 := rfl
    rw [hstep, totalSampleCount_append, totalSampleCount_append, ih]
    have hkept : totalSampleCount
        (if (processSamples series.labels series.samples).1.isEmpty then []
         else [{ labels := series.labels,
                 samples := (processSamples series.labels series.samples).1 }]) =
        ((processSamples series.labels series.samples).1.map
          fun r => r.profile.sample.length).sum := by
      by_cases hE : (processSamples series.labels series.samples).1.isEmpty
      · rw [if_pos hE, List.isEmpty_iff.mp hE]
        rfl
      · rw [if_neg hE]
        simp [totalSampleCount, seriesSampleCount]
    rw [hkept]
    have hc := processSamples_count series.labels series.samples
    simp only [totalSampleCount, List.map_cons, List.sum_cons, seriesSampleCount]
    simp only [totalSampleCount] at hc
    omega

lemma extract_mem (ss : List ProfileSeries) (series : ProfileSeries)
    (hs : series ∈ ss) (raw : ProfileSample) (hraw : raw ∈ series.samples)
    (htriv : sampleGroupsTrivial (groupSamplesWithoutLabels raw.profile) = true) :
    ∃ out ∈ (extractSampleSeries ⟨ss⟩).1,
      out.labels = series.labels ∧ raw ∈ out.samples := by
  induction ss with
  | nil => cases hs
  | cons s0 rest ih =>
    have hstep : (extractSampleSeries ⟨s0 :: rest⟩).1 =
        ((processSamples s0.labels s0.samples).2.1 ++
         (if (processSamples s0.labels s0.samples).1.isEmpty then []
          else [{ labels := s0.labels,
                  samples := (processSamples s0.labels s0.samples).1 }])) ++
        (extractSampleSeries ⟨rest⟩).1 := rfl
    rcases List.mem_cons.mp hs with heq | hs'
    · have hkeep : raw ∈ (processSamples s0.labels s0.samples).1 :=
        processSamples_keeps s0.labels s0.samples raw (heq ▸ hraw) htriv
      have hne : ¬ (processSamples s0.labels s0.samples).1.isEmpty = true := by
        intro hE
        rw [List.isEmpty_iff.mp hE] at hkeep
        cases hkeep
      refine ⟨{ labels := s0.labels,
                samples := (processSamples s0.labels s0.samples).1 }, ?_, ?_, hkeep⟩
      · rw [hstep]
        refine List.mem_append.mpr (Or.inl (List.mem_append.mpr (Or.inr ?_)))
        rw [if_neg hne]
        exact List.mem_cons_self _ _
      · rw [heq]
    · rcases ih hs' with ⟨out, hout, hlab, hmem⟩
      refine ⟨out, ?_, hlab, hmem⟩
      rw [hstep]
      exact List.mem_append.mpr (Or.inr hout)

/-- C6: `extractSampleSeries` preserves the total pprof sample count (for
requests in which some sample carries sample labels), and every sample
whose label groups are empty or form a single label-free group is kept in
its original series unchanged. -/
theorem extractSampleSeries_spec (req : PushRequest)
    (hlab : ∃ series ∈ req.series, ∃ raw ∈ series.samples,
      ∃ s ∈ raw.profile.sample, s.labels ≠ []) :
    totalSampleCount (extractSampleSeries req).1 = totalSampleCount req.series ∧
    ∀ series ∈ req.series, ∀ raw ∈ series.samples,
      sampleGroupsTrivial (groupSamplesWithoutLabels raw.profile) = true →
      ∃ out ∈ (extractSampleSeries req).1,
        out.labels = series.labels ∧ raw ∈ out.samples := by
  obtain ⟨ss⟩ := req
  exact ⟨extract_count ss,
    fun series hs raw hraw ht => extract_mem ss series hs raw hraw ht⟩

/-- Concrete request used by the C6 witness: one series whose first sample
carries a `span_id` sample label next to an unlabeled sample, and whose
second sample carries no sample labels at all. -/
def reqSplit : PushRequest :=
  ⟨[⟨[⟨"__name__", "cpu"⟩],
     [⟨⟨["", "span_id", "x"], [⟨[⟨1, 2⟩], [1]⟩, ⟨[], [2]⟩]⟩, [], "i1"⟩,
      ⟨⟨["", "span_id", "x"], [⟨[], [2]⟩]⟩, [], "i2"⟩]⟩]⟩

/-- C6 witness: the splitting specification applied to `reqSplit`, whose
first sample carries sample labels. -/
theorem extractSampleSeries_spec_witness :
    (∃ series ∈ reqSplit.series, ∃ raw ∈ series.samples,
      ∃ s ∈ raw.profile.sample, s.labels ≠ []) ∧
    (totalSampleCount (extractSampleSeries reqSplit).1 =
        totalSampleCount reqSplit.series ∧
      ∀ series ∈ reqSplit.series, ∀ raw ∈ series.samples,
        sampleGroupsTrivial (groupSamplesWithoutLabels raw.profile) = true →
        ∃ out ∈ (extractSampleSeries reqSplit).1,
          out.labels = series.labels ∧ raw ∈ out.samples) :=
  ⟨by decide, extractSampleSeries_spec reqSplit (by decide)⟩

/-- Modelled from the spec: the numeric value of one hexadecimal digit. -/
def hexDigitVal (c : Char) : Option Nat :=
  if '0' ≤ c ∧ c ≤ '9' then some (c.toNat - 48)
  else if 'a' ≤ c ∧ c ≤ 'f' then some (c.toNat - 87)
  else if 'A' ≤ c ∧ c ≤ 'F' then some (c.toNat - 55)
  else none

/-- Modelled from the spec: `phlaremodel.ParseSessionID`; the session id is
a hexadecimal integer, and an empty or non-hexadecimal value fails to
parse. -/
def parseSessionID (s : String) : Option Nat :=
  if s.isEmpty then none
  else
    s.data.foldl
      (fun acc c => acc.bind fun n => (hexDigitVal c).map fun d => 16 * n + d)
      (some 0)

/-- Modelled from the spec: `phlaremodel.SessionID.String` renders the id
in the same hexadecimal textual form. -/
def sessionIDString (n : Nat) : String :=
  String.mk (Nat.toDigits 16 n)

/-- `limitMaxSessionsPerSeries` (distributor.go lines 547-563), the tenant
limit supplied as a parameter: a zero limit strips the session label; with
a positive limit the parsed session id is reduced modulo the limit in
place, and a label whose value fails to parse is deleted. -/
def limitMaxSessionsPerSeries (maxSessionsPerSeries : Nat)
    (labels : List LabelPair) : List LabelPair :=
  if maxSessionsPerSeries = 0 then deleteLabel sessionIDLabelName labels
  else
    match getLabel sessionIDLabelName labels with
    | none => labels
    | some sessionIDLabel =>
      match parseSessionID sessionIDLabel.value with
      | none => deleteLabel sessionIDLabelName labels
      | some sessionID =>
        setFirstLabelValue sessionIDLabelName
          (sessionIDString (sessionID % maxSessionsPerSeries)) labels

lemma mem_deleteLabel (n : String) (ls : List LabelPair) (x : LabelPair) :
    x ∈ deleteLabel n ls ↔ x ∈ ls ∧ x.name ≠ n := by
  simp [deleteLabel, List.mem_filter]

lemma lookupLabel_setFirst_self (n v : String) (ls : List LabelPair)
    (l : LabelPair) (h : getLabel n ls = some l) :
    lookupLabel n (setFirstLabelValue n v ls) = some v := by
  induction ls with
  | nil => cases h
  | cons a ls ih =>
    rw [setFirstLabelValue]
    by_cases ha : a.name = n
    · rw [if_pos ha]
      simp [lookupLabel, ha]
    · rw [if_neg ha]
      rw [getLabel, if_neg ha] at h
      simp only [lookupLabel, if_neg ha]
      exact ih h

lemma lookupLabel_setFirst_other (n m v : String) (hm : m ≠ n)
    (ls : List LabelPair) :
    lookupLabel m (setFirstLabelValue n v ls) = lookupLabel m ls := by
  induction ls with
  | nil => rfl
  | cons a ls ih =>
    rw [setFirstLabelValue]
    by_cases ha : a.name = n
    · rw [if_pos ha]
      have ham : ¬ a.name = m := fun h => hm (h ▸ ha.symm ▸ rfl)
      simp only [lookupLabel]
      rw [if_neg (show ¬ ({ a with value := v } : LabelPair).name = m from ham),
        if_neg ham]
    · rw [if_neg ha]
      simp only [lookupLabel]
      by_cases ham : a.name = m
      · rw [if_pos ham, if_pos ham]
      · rw [if_neg ham, if_neg ham, ih]

/-- C9: a zero `MaxSessionsPerSeries` strips the session label entirely,
and a positive limit `N` replaces the parsed session id value `k` by
`k % N` rendered in the same textual form, in place, leaving labels of
other names untouched. -/
theorem limitMaxSessionsPerSeries_spec (ls : List LabelPair) (l : LabelPair)
    (N k : Nat) (hN : 0 < N)
    (hlab : getLabel sessionIDLabelName ls = some l)
    (hparse : parseSessionID l.value = some k) :
    (∀ x ∈ limitMaxSessionsPerSeries 0 ls, x ∈ ls ∧ x.name ≠ sessionIDLabelName) ∧
    (∀ x ∈ ls, x.name ≠ sessionIDLabelName → x ∈ limitMaxSessionsPerSeries 0 ls) ∧
    lookupLabel sessionIDLabelName (limitMaxSessionsPerSeries N ls) =
      some (sessionIDString (k % N)) ∧
    ∀ m, m ≠ sessionIDLabelName →
      lookupLabel m (limitMaxSessionsPerSeries N ls) = lookupLabel m ls := by
  have hzero : limitMaxSessionsPerSeries 0 ls = deleteLabel sessionIDLabelName ls := by
    rw [limitMaxSessionsPerSeries, if_pos rfl]
  have hpos : limitMaxSessionsPerSeries N ls =
      setFirstLabelValue sessionIDLabelName (sessionIDString (k % N)) ls := by
    rw [limitMaxSessionsPerSeries, if_neg hN.ne', hlab]
    simp only [hparse]
  refine ⟨?_, ?_, ?_, ?_⟩
  · intro x hx
    rw [hzero] at hx
    exact (mem_deleteLabel _ _ _).mp hx
  · intro x hx hname
    rw [hzero]
    exact (mem_deleteLabel _ _ _).mpr ⟨hx, hname⟩
  · rw [hpos]
    exact lookupLabel_setFirst_self _ _ ls l hlab
  · intro m hm
    rw [hpos]
    exact lookupLabel_setFirst_other _ m _ hm ls

/-- C9 witness: the session-id reduction at `MaxSessionsPerSeries = 8` on
the label `session_id="42"` (hexadecimal value 66), whose reduced value
renders as `"2"`. -/
theorem limitMaxSessionsPerSeries_spec_witness :
    ((0 : Nat) < 8 ∧
     getLabel sessionIDLabelName [LabelPair.mk "session_id" "42"] =
       some (LabelPair.mk "session_id" "42") ∧
     parseSessionID "42" = some 66) ∧
    sessionIDString (66 % 8) = "2" ∧
    limitMaxSessionsPerSeries 8 [LabelPair.mk "session_id" "42"] =
      [LabelPair.mk "session_id" "2"] ∧
    lookupLabel sessionIDLabelName
        (limitMaxSessionsPerSeries 8 [LabelPair.mk "session_id" "42"]) =
      some (sessionIDString (66 % 8)) :=
  ⟨⟨by decide, by decide, by decide⟩, by decide, by decide,
   (limitMaxSessionsPerSeries_spec [LabelPair.mk "session_id" "42"]
     (LabelPair.mk "session_id" "42") 8 66 (by decide) (by decide)
     (by decide)).2.2.1⟩

/-- C10 (implicit): with a positive limit, a series whose session label
value fails to parse has the session label silently deleted, all other
labels kept. -/
theorem limitMaxSessionsPerSeries_unparsable (ls : List LabelPair)
    (l : LabelPair) (N : Nat) (hN : 0 < N)
    (hlab : getLabel sessionIDLabelName ls = some l)
    (hparse : parseSessionID l.value = none) :
    limitMaxSessionsPerSeries N ls = deleteLabel sessionIDLabelName ls ∧
    (∀ x ∈ limitMaxSessionsPerSeries N ls, x ∈ ls ∧ x.name ≠ sessionIDLabelName) ∧
    (∀ x ∈ ls, x.name ≠ sessionIDLabelName → x ∈ limitMaxSessionsPerSeries N ls) := by
  have h1 : limitMaxSessionsPerSeries N ls = deleteLabel sessionIDLabelName ls := by
    rw [limitMaxSessionsPerSeries, if_neg hN.ne', hlab]
    simp only [hparse]
  refine ⟨h1, ?_, ?_⟩
  · intro x hx
    rw [h1] at hx
    exact (mem_deleteLabel _ _ _).mp hx
  · intro x hx hname
    rw [h1]
    exact (mem_deleteLabel _ _ _).mpr ⟨hx, hname⟩

/-- C10 witness: the deletion applied to a series carrying an unparsable
session id "zz" next to an unrelated label. -/
theorem limitMaxSessionsPerSeries_unparsable_witness :
    ((0 : Nat) < 3 ∧
     getLabel sessionIDLabelName
       [LabelPair.mk "a" "b", LabelPair.mk "session_id" "zz"] =
       some (LabelPair.mk "session_id" "zz") ∧
     parseSessionID "zz" = none) ∧
    (limitMaxSessionsPerSeries 3 [LabelPair.mk "a" "b", LabelPair.mk "session_id" "zz"] =
      deleteLabel sessionIDLabelName
        [LabelPair.mk "a" "b", LabelPair.mk "session_id" "zz"] ∧
     (∀ x ∈ limitMaxSessionsPerSeries 3
        [LabelPair.mk "a" "b", LabelPair.mk "session_id" "zz"],
        x ∈ [LabelPair.mk "a" "b", LabelPair.mk "session_id" "zz"] ∧
        x.name ≠ sessionIDLabelName) ∧
     ∀ x ∈ [LabelPair.mk "a" "b", LabelPair.mk "session_id" "zz"],
        x.name ≠ sessionIDLabelName →
        x ∈ limitMaxSessionsPerSeries 3
          [LabelPair.mk "a" "b", LabelPair.mk "session_id" "zz"]) :=
  ⟨⟨by decide, by decide, by decide⟩,
   limitMaxSessionsPerSeries_unparsable
     [LabelPair.mk "a" "b", LabelPair.mk "session_id" "zz"]
     (LabelPair.mk "session_id" "zz") 3 (by decide) (by decide) (by decide)⟩

/-- The label normalization loop of `PushParsed` (distributor.go lines
240-246): synthesize `service_name="unspecified"` when `Get` returns the
empty string, then sort the labels by name. -/
def normalizeSeriesLabels (ls : List LabelPair) : List LabelPair :=
  sortLabels
    (if labelsGet serviceNameLabel ls = "" then
      ls ++ [⟨serviceNameLabel, "unspecified"⟩]
    else ls)

lemma labelsGet_absent (n : String) (ls : List LabelPair)
    (h : ∀ l ∈ ls, l.name ≠ n) : labelsGet n ls = "" := by
  induction ls with
  | nil => rfl
  | cons a ls ih =>
    rw [labelsGet, if_neg (h a (List.mem_cons_self a ls))]
    exact ih fun l hl => h l (List.mem_cons_of_mem a hl)

lemma labelsGet_ne_empty (n : String) (ls : List LabelPair)
    (h : labelsGet n ls ≠ "") : ∃ l ∈ ls, l.name = n := by
  induction ls with
  | nil => exact absurd rfl h
  | cons a ls ih =>
    rw [labelsGet] at h
    by_cases ha : a.name = n
    · exact ⟨a, List.mem_cons_self a ls, ha⟩
    · rw [if_neg ha] at h
      rcases ih h with ⟨l, hl, hn⟩
      exact ⟨l, List.mem_cons_of_mem a hl, hn⟩

lemma labelsGet_empty_absent (n : String) (ls : List LabelPair)
    (hv : ∀ l ∈ ls, l.name = n → l.value ≠ "")
    (h : labelsGet n ls = "") : ∀ l ∈ ls, l.name ≠ n := by
  induction ls with
  | nil => intro l hl; cases hl
  | cons a ls ih =>
    intro l hl hn
    rw [labelsGet] at h
    by_cases ha : a.name = n
    · rw [if_pos ha] at h
      exact hv a (List.mem_cons_self a ls) ha h
    · rw [if_neg ha] at h
      rcases List.mem_cons.mp hl with heq | hl'
      · exact ha (heq ▸ hn)
      · exact ih (fun l hl hn => hv l (List.mem_cons_of_mem a hl) hn) h l hl' hn

lemma uniqueNames_sortLabels (ls : List LabelPair) (h : uniqueNames ls) :
    uniqueNames (sortLabels ls) := by
  rw [uniqueNames] at h ⊢
  have hperm : List.Perm ((sortLabels ls).map LabelPair.name)
      (ls.map LabelPair.name) :=
    (List.perm_insertionSort labelLE ls).map _
  exact hperm.nodup_iff.mpr h

/-- C8: after normalization a series' labels are sorted by name, unique by
name (given a valid input: unique names and no empty-valued service_name
label), and carry a `service_name` label, with `"unspecified"` synthesized
when the input had none. -/
theorem normalizeSeriesLabels_spec (ls : List LabelPair)
    (hu : uniqueNames ls)
    (hv : ∀ l ∈ ls, l.name = serviceNameLabel → l.value ≠ "") :
    sortedByName (normalizeSeriesLabels ls) ∧
    uniqueNames (normalizeSeriesLabels ls) ∧
    (∃ l ∈ normalizeSeriesLabels ls, l.name = serviceNameLabel) ∧
    ((∀ l ∈ ls, l.name ≠ serviceNameLabel) →
      LabelPair.mk serviceNameLabel "unspecified" ∈ normalizeSeriesLabels ls) := by
  refine ⟨sortLabels_sorted _, ?_, ?_, ?_⟩
  · apply uniqueNames_sortLabels
    by_cases hget : labelsGet serviceNameLabel ls = ""
    · rw [if_pos hget]
      have habs := labelsGet_empty_absent serviceNameLabel ls hv hget
      rw [uniqueNames, List.map_append, List.map_cons, List.map_nil]
      have hperm : List.Perm (ls.map LabelPair.name ++ [serviceNameLabel])
          (serviceNameLabel :: ls.map LabelPair.name) :=
        List.perm_append_singleton _ _
      rw [hperm.nodup_iff, List.nodup_cons]
      refine ⟨?_, hu⟩
      intro hmem
      rcases List.mem_map.mp hmem with ⟨l, hl, hn⟩
      exact habs l hl hn
    · rw [if_neg hget]
      exact hu
  · by_cases hget : labelsGet serviceNameLabel ls = ""
    · refine ⟨⟨serviceNameLabel, "unspecified"⟩, ?_, rfl⟩
      rw [normalizeSeriesLabels, if_pos hget, mem_sortLabels]
      exact List.mem_append.mpr (Or.inr (List.mem_cons_self _ _))
    · rcases labelsGet_ne_empty serviceNameLabel ls hget with ⟨l, hl, hn⟩
      refine ⟨l, ?_, hn⟩
      rw [normalizeSeriesLabels, if_neg hget, mem_sortLabels]
      exact hl
  · intro habs
    have hget : labelsGet serviceNameLabel ls = "" := labelsGet_absent _ ls habs
    rw [normalizeSeriesLabels, if_pos hget, mem_sortLabels]
    exact List.mem_append.mpr (Or.inr (List.mem_cons_self _ _))

/-- C8 witness: normalization of `[{__name__="cpu"}]` yields the sorted,
service-name-bearing list `[{__name__="cpu"}, {service_name="unspecified"}]`. -/
theorem normalizeSeriesLabels_spec_witness :
    (uniqueNames [LabelPair.mk "__name__" "cpu"] ∧
     ∀ l ∈ [LabelPair.mk "__name__" "cpu"],
       l.name = serviceNameLabel → l.value ≠ "") ∧
    normalizeSeriesLabels [LabelPair.mk "__name__" "cpu"] =
      [LabelPair.mk "__name__" "cpu", LabelPair.mk "service_name" "unspecified"] ∧
    (sortedByName (normalizeSeriesLabels [LabelPair.mk "__name__" "cpu"]) ∧
     uniqueNames (normalizeSeriesLabels [LabelPair.mk "__name__" "cpu"]) ∧
     (∃ l ∈ normalizeSeriesLabels [LabelPair.mk "__name__" "cpu"],
       l.name = serviceNameLabel) ∧
     ((∀ l ∈ [LabelPair.mk "__name__" "cpu"], l.name ≠ serviceNameLabel) →
       LabelPair.mk serviceNameLabel "unspecified" ∈
         normalizeSeriesLabels [LabelPair.mk "__name__" "cpu"])) :=
  ⟨⟨by decide, by decide⟩, by decide,
   normalizeSeriesLabels_spec [LabelPair.mk "__name__" "cpu"] (by decide)
     (by decide)⟩

/-- Byte size of a label list as counted by `PushParsed` (lines 261-264):
the sum of the label names' and values' byte lengths. -/
def labelsByteSize (ls : List LabelPair) : Nat :=
  (ls.map fun l => l.name.utf8ByteSize + l.value.utf8ByteSize).sum

/-- Outcome of `PushParsed`, modelled up to the hand-off to shard selection
and fan-out; the rejecting outcomes carry the increments of the
discarded-profiles and discarded-bytes counters under their reason. -/
inductive PushOutcome
  | invalidProfile (discardedProfiles discardedBytes : Nat)
  | noProfiles
  | rateLimited (discardedProfiles discardedBytes : Nat)
  | dispatched (series : List ProfileSeries) (newProfiles : List Profile)
deriving DecidableEq, Repr

/-- The per-sample accounting and validation of `PushParsed` (lines
267-296): each sample increments the profile count and adds its
decompressed size (oracle `psize` for `SizeBytes` / `SizeVT`) before being
validated (oracle `validate` for `validation.ValidateProfile`); the first
invalid sample aborts with the running totals. -/
def accountSamples (validate : List LabelPair → Profile → Bool)
    (psize : Profile → Nat) (labels : List LabelPair) :
    Nat × Nat → List ProfileSample → Except (Nat × Nat) (Nat × Nat)
  | acc, [] => Except.ok acc
  | acc, raw :: rest =>
    let acc' := (acc.1 + 1, acc.2 + psize raw.profile)
    if validate labels raw.profile then
      accountSamples validate psize labels acc' rest
    else Except.error acc'

/-- The per-series loop of `PushParsed` (lines 259-297): label bytes are
counted before the session limit is applied to the series labels, and the
samples are validated against the session-limited labels. -/
def accountSeriesList (validate : List LabelPair → Profile → Bool)
    (psize : Profile → Nat) (maxSessions : Nat) :
    Nat × Nat → List ProfileSeries → Except (Nat × Nat) (Nat × Nat)
  | acc, [] => Except.ok acc
  | acc, series :: rest =>
    let acc1 := (acc.1, acc.2 + labelsByteSize series.labels)
    match accountSamples validate psize
        (limitMaxSessionsPerSeries maxSessions series.labels) acc1
        series.samples with
    | Except.error e => Except.error e
    | Except.ok acc2 => accountSeriesList validate psize maxSessions acc2 rest

/-- The normalization pass of `PushParsed` (lines 240-246) over the whole
request. -/
def normalizeRequest (req : PushRequest) : PushRequest :=
  ⟨req.series.map fun s => { s with labels := normalizeSeriesLabels s.labels }⟩

/-- The session-limit pass of `PushParsed` (line 266), producing the
request later seen by `extractSampleSeries`. -/
def limitRequest (maxSessions : Nat) (req : PushRequest) : PushRequest :=
  ⟨req.series.map fun s =>
    { s with labels := limitMaxSessionsPerSeries maxSessions s.labels }⟩

/-- Total number of profiles in a request: one per sample
(`totalProfiles` in `PushParsed`). -/
def totalProfiles (req : PushRequest) : Nat :=
  (req.series.map fun s => s.samples.length).sum

/-- `totalPushUncompressedBytes` of a request: per series the labels' byte
size plus each sample's decompressed size. -/
def totalUncompressedBytes (psize : Profile → Nat) (req : PushRequest) : Nat :=
  (req.series.map fun s =>
    labelsByteSize s.labels + (s.samples.map fun r => psize r.profile).sum).sum

/-- `PushParsed` (distributor.go lines 229-318) up to the hand-off to the
fan-out: normalize labels, account and validate, reject empty requests,
apply the rate-limit gate (oracle `allowN` for the token bucket), and
otherwise split the request by sample labels. -/
def pushParsed (validate : List LabelPair → Profile → Bool)
    (psize : Profile → Nat) (allowN : Nat → Bool) (maxSessions : Nat)
    (req : PushRequest) : PushOutcome :=
  let req1 := normalizeRequest req
  match accountSeriesList validate psize maxSessions (0, 0) req1.series with
  | Except.error acc => PushOutcome.invalidProfile acc.1 acc.2
  | Except.ok acc =>
    if acc.1 = 0 then PushOutcome.noProfiles
    else if allowN acc.2 then
      PushOutcome.dispatched (extractSampleSeries (limitRequest maxSessions req1)).1
        (extractSampleSeries (limitRequest maxSessions req1)).2
    else PushOutcome.rateLimited acc.1 acc.2

lemma accountSamples_ok (validate : List LabelPair → Profile → Bool)
    (psize : Profile → Nat) (labels : List LabelPair) (acc : Nat × Nat)
    (raws : List ProfileSample)
    (h : ∀ raw ∈ raws, validate labels raw.profile = true) :
    accountSamples validate psize labels acc raws =
      Except.ok (acc.1 + raws.length,
        acc.2 + (raws.map fun r => psize r.profile).sum) := by
  induction raws generalizing acc with
  | nil => simp [accountSamples]
  | cons raw rest ih =>
    rw [accountSamples, if_pos (h raw (List.mem_cons_self raw rest))]
    rw [ih _ fun r hr => h r (List.mem_cons_of_mem raw hr)]
    simp only [Except.ok.injEq, Prod.mk.injEq, List.length_cons, List.map_cons,
      List.sum_cons]
    omega

lemma accountSeriesList_ok (validate : List LabelPair → Profile → Bool)
    (psize : Profile → Nat) (maxSessions : Nat) (acc : Nat × Nat)
    (ss : List ProfileSeries)
    (h : ∀ series ∈ ss, ∀ raw ∈ series.samples,
      validate (limitMaxSessionsPerSeries maxSessions series.labels)
        raw.profile = true) :
    accountSeriesList validate psize maxSessions acc ss =
      Except.ok (acc.1 + (ss.map fun s => s.samples.length).sum,
        acc.2 + (ss.map fun s => labelsByteSize s.labels +
          (s.samples.map fun r => psize r.profile).sum).sum) := by
  induction ss generalizing acc with
  | nil => simp [accountSeriesList]
  | cons series rest ih =>
    rw [accountSeriesList]
    rw [accountSamples_ok validate psize _ _ _
      (h series (List.mem_cons_self series rest))]
    simp only []
    rw [ih _ fun s hs => h s (List.mem_cons_of_mem series hs)]
    simp only [Except.ok.injEq, Prod.mk.injEq, List.map_cons, List.sum_cons]
    omega

/-- C5: for a request with at least one profile whose samples all pass
validation, a rate-limiter denial makes `PushParsed` return the
ResourceExhausted outcome carrying exactly the total profile count and the
total uncompressed byte count as the rate-limited discard increments, and
no sample splitting or fan-out takes place. -/
theorem pushParsed_rate_limited (validate : List LabelPair → Profile → Bool)
    (psize : Profile → Nat) (allowN : Nat → Bool) (maxSessions : Nat)
    (req : PushRequest)
    (hvalid : ∀ series ∈ (normalizeRequest req).series, ∀ raw ∈ series.samples,
      validate (limitMaxSessionsPerSeries maxSessions series.labels)
        raw.profile = true)
    (hprof : 0 < totalProfiles (normalizeRequest req))
    (hdeny : allowN (totalUncompressedBytes psize (normalizeRequest req)) = false) :
    pushParsed validate psize allowN maxSessions req =
      PushOutcome.rateLimited (totalProfiles (normalizeRequest req))
        (totalUncompressedBytes psize (normalizeRequest req)) ∧
    ∀ ps np, pushParsed validate psize allowN maxSessions req ≠
      PushOutcome.dispatched ps np := by
  have hacc : accountSeriesList validate psize maxSessions (0, 0)
      (normalizeRequest req).series =
      Except.ok (totalProfiles (normalizeRequest req),
        totalUncompressedBytes psize (normalizeRequest req)) := by
    rw [accountSeriesList_ok validate psize maxSessions _ _ hvalid]
    simp [totalProfiles, totalUncompressedBytes]
  have h1 : pushParsed validate psize allowN maxSessions req =
      PushOutcome.rateLimited (totalProfiles (normalizeRequest req))
        (totalUncompressedBytes psize (normalizeRequest req)) := by
    rw [pushParsed, hacc]
    simp only []
    rw [if_neg (Nat.pos_iff_ne_zero.mp hprof), if_neg (by rw [hdeny]; exact
      Bool.false_ne_true)]
  refine ⟨h1, fun ps np hcontra => ?_⟩
  rw [h1] at hcontra
  cases hcontra

/-- C5 witness: a single-sample request denied by the rate limiter, with an
always-accepting validator and a constant decompressed size; the outcome is
the rate-limited rejection with the request's totals, not a dispatch. -/
theorem pushParsed_rate_limited_witness :
    ((∀ series ∈ (normalizeRequest ⟨[⟨[⟨"x", "y"⟩], [⟨⟨[""], []⟩, [], "a"⟩]⟩]⟩).series,
       ∀ raw ∈ series.samples,
         (fun (_ : List LabelPair) (_ : Profile) => true)
           (limitMaxSessionsPerSeries 0 series.labels) raw.profile = true) ∧
     0 < totalProfiles (normalizeRequest ⟨[⟨[⟨"x", "y"⟩], [⟨⟨[""], []⟩, [], "a"⟩]⟩]⟩) ∧
     (fun (_ : Nat) => false)
       (totalUncompressedBytes (fun _ => 2000)
         (normalizeRequest ⟨[⟨[⟨"x", "y"⟩], [⟨⟨[""], []⟩, [], "a"⟩]⟩]⟩)) = false) ∧
    (pushParsed (fun _ _ => true) (fun _ => 2000) (fun _ => false) 0
        ⟨[⟨[⟨"x", "y"⟩], [⟨⟨[""], []⟩, [], "a"⟩]⟩]⟩ =
      PushOutcome.rateLimited
        (totalProfiles (normalizeRequest ⟨[⟨[⟨"x", "y"⟩], [⟨⟨[""], []⟩, [], "a"⟩]⟩]⟩))
        (totalUncompressedBytes (fun _ => 2000)
          (normalizeRequest ⟨[⟨[⟨"x", "y"⟩], [⟨⟨[""], []⟩, [], "a"⟩]⟩]⟩)) ∧
     ∀ ps np, pushParsed (fun _ _ => true) (fun _ => 2000) (fun _ => false) 0
        ⟨[⟨[⟨"x", "y"⟩], [⟨⟨[""], []⟩, [], "a"⟩]⟩]⟩ ≠
      PushOutcome.dispatched ps np) :=
  ⟨⟨by decide, by decide, by decide⟩,
   pushParsed_rate_limited (fun _ _ => true) (fun _ => 2000) (fun _ => false) 0
     ⟨[⟨[⟨"x", "y"⟩], [⟨⟨[""], []⟩, [], "a"⟩]⟩]⟩ (by decide) (by decide)
     (by decide)⟩
